import Mathlib

/-
Verification of the aspect-based construct-graph core of the
premiumparking-blueprint application.

The repository source (src/main.ts) contributes the Tags type, the
ApplyTags aspect (visit, applyTag) and the concrete aspect registrations.
The surrounding construct-graph machinery (node tree, pre-order traversal,
aspect invocation, tag manager map, suppression ledger, attach) is
library code that is not part of the repository sources; those parts are
modelled from the specification and are marked as such below.
-/

/-- Stage literal union from src/main.ts line 15: the stage tag value is
one of dev, staging, prod. -/
inductive Stage where
  | dev
  | staging
  | prod
deriving DecidableEq

/-- String rendering of a Stage literal. -/
def Stage.render : Stage → String
  | .dev => "dev"
  | .staging => "staging"
  | .prod => "prod"

/-- Modelled from the spec: a Tag Set is a mapping from tag key to tag
value (the TagManager map of aws-cdk-lib, which is not in src). -/
def TagMap : Type := String → Option String

/-- Modelled from the spec: TagManager.setTag stores a value under a key,
overwriting any existing value for that key (last-write-wins). -/
def setTag (m : TagMap) (key value : String) : TagMap :=
  fun k => if k = key then some value else m k

/-- The Tags type of src/main.ts lines 14-19: an intersection of a
string-to-string index signature with four mandatory fields; stage is
restricted to the Stage literals.  extra holds the additional index-
signature keys; a TypeScript object cannot repeat a key, so the extra
keys differ from the four mandatory ones (extra_ok). -/
structure Tags where
  stage : Stage
  project : String
  owner : String
  mapMigrated : String
  extra : List (String × String)
  extra_ok : ∀ kv ∈ extra,
    kv.1 ∉ (["stage", "project", "owner", "map-migrated"] : List String)

/-- The key-value pairs of a Tags object, as enumerated by
Object.entries in src/main.ts line 30. -/
def Tags.entries (c : Tags) : List (String × String) :=
  ("stage", c.stage.render) :: ("project", c.project) :: ("owner", c.owner)
    :: ("map-migrated", c.mapMigrated) :: c.extra

/-- The configured keys of a Tags object. -/
def Tags.keys (c : Tags) : List String :=
  c.entries.map Prod.fst

/-- The value a key-value list assigns to a key when written left to
right with last-write-wins (the last occurrence of the key wins). -/
def lastVal : List (String × String) → String → Option String
  | [], _ => none
  | kv :: rest, k =>
    match lastVal rest k with
    | some v => some v
    | none => if k = kv.1 then some kv.2 else none

/-- The value a Tags object configures for a key. -/
def Tags.valueFor (c : Tags) (k : String) : Option String :=
  lastVal c.entries k

/-- Modelled from the spec: one Suppression Ledger entry, a rule
identifier with a human-readable justification and an applies-to-subtree
flag (cdk-nag NagPackSuppression plus the applyToChildren argument of
NagSuppressions.addResourceSuppressions, which is not in src). -/
structure SuppressionEntry where
  id : String
  reason : String
  appliesToSubtree : Bool
deriving DecidableEq

/-- Modelled from the spec: the per-node state of a construct-graph
node: a stable identifier, the optional Taggable capability state (the
tag manager map; none when the node is not taggable) and the Suppression
Ledger. -/
structure NodeState where
  ident : String
  tags : Option TagMap
  suppressions : List SuppressionEntry

/-- Modelled from the spec: TagManager.isTaggable answers whether a node
carries the Taggable capability, in this model whether tag state is
present. -/
def TagManager.isTaggable (s : NodeState) : Bool :=
  s.tags.isSome

/-- The tag value a node currently holds for a key (none when the node
is not taggable or the key is unset). -/
def tagValue (s : NodeState) (k : String) : Option String :=
  match s.tags with
  | none => none
  | some m => m k

/-- Whether a node currently holds some tag value for a key. -/
def tagPresent (s : NodeState) (k : String) : Bool :=
  (tagValue s k).isSome

/-- The ApplyTags aspect class of src/main.ts lines 21-42, holding its
configured Tags mapping. -/
structure ApplyTags where
  tags : Tags

/-- ApplyTags.applyTag from src/main.ts lines 36-41: set one key to one
value on the tag manager of a taggable resource. -/
def ApplyTags.applyTag (m : TagMap) (key value : String) : TagMap :=
  setTag m key value

/-- The forEach loop in ApplyTags.visit: apply applyTag for every
configured entry, left to right. -/
def applyAll (es : List (String × String)) (m : TagMap) : TagMap :=
  es.foldl (fun acc kv => ApplyTags.applyTag acc kv.1 kv.2) m

/-- ApplyTags.visit from src/main.ts lines 28-34: when the node is
taggable, write every configured entry through applyTag; otherwise do
nothing. -/
def ApplyTags.visit (a : ApplyTags) (node : NodeState) : NodeState :=
  if TagManager.isTaggable node then
    { node with tags := node.tags.map (applyAll a.tags.entries) }
  else
    node

mutual
/-- Modelled from the spec: the construct tree, an ordered rooted tree
of nodes. -/
inductive CTree where
  | node : NodeState → CForest → CTree
/-- Modelled from the spec: the ordered child list of a node. -/
inductive CForest where
  | nil : CForest
  | cons : CTree → CForest → CForest
end

/-- The state stored at the root of a tree. -/
def CTree.state : CTree → NodeState
  | .node s _ => s

mutual
/-- Modelled from the spec: applying one aspect visit to every node of
the tree (the tree shape is read-only during a pass; visits rewrite node
state only). -/
def CTree.mapState (f : NodeState → NodeState) : CTree → CTree
  | .node s cs => .node (f s) (CForest.mapState f cs)
def CForest.mapState (f : NodeState → NodeState) : CForest → CForest
  | .nil => .nil
  | .cons c cs => .cons (CTree.mapState f c) (CForest.mapState f cs)
end

mutual
/-- Modelled from the spec: the deterministic pre-order traversal (node
before its children, children left to right). -/
def CTree.preorder : CTree → List NodeState
  | .node s cs => s :: CForest.preorder cs
def CForest.preorder : CForest → List NodeState
  | .nil => []
  | .cons c cs => CTree.preorder c ++ CForest.preorder cs
end

/-- Modelled from the spec: the synthesizer aspect loop; every
registered aspect runs over a full pre-order traversal, in registration
order, each aspect finishing its whole traversal before the next one
starts. -/
def runAspects (as : List (NodeState → NodeState)) (t : CTree) : CTree :=
  as.foldl (fun acc a => CTree.mapState a acc) t

/-- The visit-event schedule of the aspect loop starting at aspect index
i: for each aspect, in order, one event (index, node state) per node of
the current pre-order traversal, then the next aspect on the updated
tree. -/
def aspectTraceFrom : Nat → List (NodeState → NodeState) → CTree → List (Nat × NodeState)
  | _, [], _ => []
  | i, a :: rest, t =>
    (t.preorder.map (fun s => (i, s))) ++ aspectTraceFrom (i + 1) rest (CTree.mapState a t)

/-- The full visit-event schedule of the aspect loop. -/
def aspectTrace (as : List (NodeState → NodeState)) (t : CTree) : List (Nat × NodeState) :=
  aspectTraceFrom 0 as t

/-- The i-th tree of an ordered child list. -/
def CForest.get? : CForest → Nat → Option CTree
  | .nil, _ => none
  | .cons c _, 0 => some c
  | .cons _ cs, i + 1 => CForest.get? cs i

/-- The subtree reached by following a list of child indices from the
root. -/
def CTree.getPath : List Nat → CTree → Option CTree
  | [], t => some t
  | i :: p, .node _ cs =>
    match CForest.get? cs i with
    | none => none
    | some c => CTree.getPath p c

/-- Whether a ledger holds some entry for a rule identifier. -/
def hasRuleEntry (s : NodeState) (r : String) : Bool :=
  s.suppressions.any (fun e => e.id == r)

/-- Whether a ledger holds some entry for a rule identifier with the
applies-to-subtree flag set. -/
def hasSubtreeRuleEntry (s : NodeState) (r : String) : Bool :=
  s.suppressions.any (fun e => e.id == r && e.appliesToSubtree)

/-- Modelled from the spec: the Policy Checker suppression decision for
a finding of rule r at the node addressed by a path: suppressed when an
ancestor-or-self ledger entry matches the rule identifier, ancestor
entries counting only when their applies-to-subtree flag is set; none
when the path does not address a node. -/
def suppressedAt (r : String) : List Nat → CTree → Option Bool
  | [], .node s _ => some (hasRuleEntry s r)
  | i :: p, .node s cs =>
    match CForest.get? cs i with
    | none => none
    | some c => (suppressedAt r p c).map (fun b => hasSubtreeRuleEntry s r || b)

/-- Modelled from the spec: NagSuppressions.addResourceSuppressions (not
in src) appends entries to the Suppression Ledger of a node; appending
is the only ledger mutation. -/
def addSuppressions (s : NodeState) (es : List SuppressionEntry) : NodeState :=
  { s with suppressions := s.suppressions ++ es }

mutual
/-- Modelled from the spec: one fallible aspect pass over the tree (node
before its children); the first visit failure aborts the pass and is
returned. -/
def CTree.mapStateE (f : NodeState → Except String NodeState) : CTree → Except String CTree
  | .node s cs =>
    match f s with
    | .error e => .error e
    | .ok s2 =>
      match CForest.mapStateE f cs with
      | .error e => .error e
      | .ok cs2 => .ok (.node s2 cs2)
def CForest.mapStateE (f : NodeState → Except String NodeState) : CForest → Except String CForest
  | .nil => .ok .nil
  | .cons c cs =>
    match CTree.mapStateE f c with
    | .error e => .error e
    | .ok c2 =>
      match CForest.mapStateE f cs with
      | .error e => .error e
      | .ok cs2 => .ok (.cons c2 cs2)
end

/-- Modelled from the spec: the fallible synthesizer aspect loop;
aspects run in registration order, a failure aborts the loop. -/
def runAspectsE : List (NodeState → Except String NodeState) → CTree → Except String CTree
  | [], t => .ok t
  | a :: rest, t =>
    match CTree.mapStateE a t with
    | .error e => .error e
    | .ok t2 => runAspectsE rest t2

/-- Modelled from the spec: the output Artifact, an opaque deterministic
serialization of the final tree; the format is out of scope, so the
Artifact carries the final tree itself. -/
structure Artifact where
  content : CTree

/-- Modelled from the spec: synthesize runs every registered aspect over
the tree and serializes the result; a visit failure aborts synthesis
with the originating error and produces no Artifact. -/
def synthesize (as : List (NodeState → Except String NodeState)) (t : CTree) :
    Except String Artifact :=
  match runAspectsE as t with
  | .error e => .error e
  | .ok t2 => .ok { content := t2 }

/-- Modelled from the spec: a stored graph node for the attach
operation: identifier, parent reference and ordered child list; the
graph is a store of such nodes addressed by position. -/
structure GraphNode where
  ident : String
  parent : Option Nat
  children : List Nat
deriving DecidableEq

/-- Modelled from the spec: the DuplicateIdentifier error of attach. -/
inductive GraphError where
  | duplicateIdentifier
deriving DecidableEq

/-- The identifiers of the existing children of a stored node. -/
def childIdents (g : List GraphNode) (pn : GraphNode) : List String :=
  pn.children.filterMap (fun j => (g[j]?).map GraphNode.ident)

/-- Modelled from the spec: attach(parent, child) appends the child to
the parent ordered child list and sets the child parent reference;
it fails with DuplicateIdentifier, leaving the store unchanged, when the
child identifier collides with an existing sibling. -/
def attach (g : List GraphNode) (p c : Nat) : List GraphNode × Option GraphError :=
  match g[p]?, g[c]? with
  | some pn, some cn =>
    if (childIdents g pn).contains cn.ident then
      (g, some .duplicateIdentifier)
    else
      ((g.set p { pn with children := pn.children ++ [c] }).set c { cn with parent := some p },
        none)
  | _, _ => (g, none)

/-- Last-write-wins summary of a key-value list written over a tag map:
the last configured value for the key when there is one, otherwise the
previous value. -/
def tagAfter (es : List (String × String)) (m : TagMap) : TagMap :=
  fun k =>
    match lastVal es k with
    | some v => some v
    | none => m k

/-- The concrete Tags mapping registered in src/main.ts lines 160-165. -/
def appTags : Tags where
  stage := .dev
  project := "Premium Parking migration"
  owner := "Premium Parking"
  mapMigrated := "d-server-tbd"
  extra := []
  extra_ok := by simp

/-- The concrete ApplyTags aspect registered in src/main.ts line 160. -/
def appAspect : ApplyTags :=
  { tags := appTags }

/-- The everywhere-empty tag map. -/
def emptyTagMap : TagMap :=
  fun _ => none

/-- Demo node: an untaggable grouping root. -/
def sRoot : NodeState :=
  { ident := "R", tags := none, suppressions := [] }

/-- Demo node: a taggable service child with no tags yet. -/
def sSvc : NodeState :=
  { ident := "svc", tags := some emptyTagMap, suppressions := [] }

/-- Demo tree: untaggable root R with taggable child svc. -/
def tDemo : CTree :=
  .node sRoot (.cons (.node sSvc .nil) .nil)

/-- Demo ledger entry: rule RULE-1 accepted for a whole subtree. -/
def ruleEntry : SuppressionEntry :=
  { id := "RULE-1", reason := "accepted", appliesToSubtree := true }

/-- Demo node C carrying the subtree-scoped RULE-1 entry. -/
def sC : NodeState :=
  { ident := "C", tags := none, suppressions := [ruleEntry] }

/-- Demo node D, a child of C. -/
def sD : NodeState :=
  { ident := "D", tags := none, suppressions := [] }

/-- Demo node S, a sibling of C. -/
def sSib : NodeState :=
  { ident := "S", tags := none, suppressions := [] }

/-- Demo suppression tree: root R with children C (entry holder, with
child D) and S. -/
def tSupp : CTree :=
  .node sRoot
    (.cons (.node sC (.cons (.node sD .nil) .nil))
      (.cons (.node sSib .nil) .nil))

/-- Demo aspect whose every visit fails. -/
def failingAspect : NodeState → Except String NodeState :=
  fun _ => .error "boom"

/-- Demo graph store: root R with child svc, plus two detached nodes,
one colliding with svc and one fresh. -/
def gDemo : List GraphNode :=
  [ { ident := "R", parent := none, children := [1] },
    { ident := "svc", parent := some 0, children := [] },
    { ident := "svc", parent := none, children := [] },
    { ident := "db", parent := none, children := [] } ]

/-- A Tags value whose project value is the empty string; the TypeScript
type admits it. -/
def tagsEmptyProject : Tags where
  stage := .dev
  project := ""
  owner := "team"
  mapMigrated := "mig"
  extra := []
  extra_ok := by simp

theorem applyAll_apply (es : List (String × String)) :
    ∀ (m : TagMap) (k : String), applyAll es m k = tagAfter es m k := by
  induction es with
  | nil => intro m k; rfl
  | cons kv rest ih =>
    intro m k
    show applyAll rest (setTag m kv.1 kv.2) k = tagAfter (kv :: rest) m k
    rw [ih]
    simp only [tagAfter, lastVal]
    cases h : lastVal rest k with
    | some v => simp
    | none =>
      by_cases hk : k = kv.1
      · simp [setTag, hk]
      · simp [setTag, hk]

theorem lastVal_isSome_of_mem (k : String) :
    ∀ es : List (String × String), k ∈ es.map Prod.fst → (lastVal es k).isSome = true := by
  intro es
  induction es with
  | nil => intro h; simp at h
  | cons kv rest ih =>
    intro h
    simp only [lastVal]
    cases hrest : lastVal rest k with
    | some v => rfl
    | none =>
      simp only [List.map_cons, List.mem_cons] at h
      rcases h with h | h
      · simp [h]
      · have := ih h
        rw [hrest] at this
        simp at this

theorem lastVal_eq_none (k : String) :
    ∀ es : List (String × String), (∀ kv ∈ es, kv.1 ≠ k) → lastVal es k = none := by
  intro es
  induction es with
  | nil => intro _; rfl
  | cons kv rest ih =>
    intro h
    simp only [lastVal]
    rw [ih (fun p hp => h p (List.mem_cons_of_mem kv hp))]
    have hk : kv.1 ≠ k := h kv (List.mem_cons_self kv rest)
    simp [Ne.symm hk]

theorem visit_not_taggable (a : ApplyTags) (s : NodeState)
    (h : TagManager.isTaggable s = false) : a.visit s = s := by
  simp [ApplyTags.visit, h]

theorem visit_tags (a : ApplyTags) (s : NodeState) (m : TagMap) (h : s.tags = some m) :
    (a.visit s).tags = some (applyAll a.tags.entries m) := by
  simp [ApplyTags.visit, TagManager.isTaggable, h]

theorem visit_ident (a : ApplyTags) (s : NodeState) : (a.visit s).ident = s.ident := by
  by_cases h : TagManager.isTaggable s <;> simp [ApplyTags.visit, h]

theorem visit_suppressions (a : ApplyTags) (s : NodeState) :
    (a.visit s).suppressions = s.suppressions := by
  by_cases h : TagManager.isTaggable s <;> simp [ApplyTags.visit, h]

theorem visit_isTaggable (a : ApplyTags) (s : NodeState) :
    TagManager.isTaggable (a.visit s) = TagManager.isTaggable s := by
  by_cases h : TagManager.isTaggable s
  · cases hm : s.tags with
    | none => simp [TagManager.isTaggable, hm] at h
    | some m => simp [TagManager.isTaggable, visit_tags a s m hm, hm]
  · simp [visit_not_taggable a s (by simpa using h)]

theorem visit_visit (a : ApplyTags) (s : NodeState) : a.visit (a.visit s) = a.visit s := by
  obtain ⟨i, tg, sup⟩ := s
  cases tg with
  | none =>
    have h : TagManager.isTaggable ⟨i, none, sup⟩ = false := rfl
    rw [visit_not_taggable a _ h, visit_not_taggable a _ h]
  | some m =>
    have key : applyAll a.tags.entries (applyAll a.tags.entries m) = applyAll a.tags.entries m := by
      funext k
      rw [applyAll_apply, applyAll_apply]
      simp only [tagAfter]
      cases h : lastVal a.tags.entries k with
      | some v => simp [h]
      | none =>
        simp only [h]
        rw [applyAll_apply]
        simp [tagAfter, h]
    have e1 : a.visit ⟨i, some m, sup⟩ = ⟨i, some (applyAll a.tags.entries m), sup⟩ := rfl
    have e2 : a.visit ⟨i, some (applyAll a.tags.entries m), sup⟩
        = ⟨i, some (applyAll a.tags.entries (applyAll a.tags.entries m)), sup⟩ := rfl
    rw [e1, e2, key]

mutual
theorem CTree.preorder_mapState (f : NodeState → NodeState) :
    ∀ t : CTree, (CTree.mapState f t).preorder = t.preorder.map f
  | .node s cs => by
    simp [CTree.mapState, CTree.preorder, CForest.preorder_mapStateF f cs]
theorem CForest.preorder_mapStateF (f : NodeState → NodeState) :
    ∀ cs : CForest, (CForest.mapState f cs).preorder = cs.preorder.map f
  | .nil => rfl
  | .cons c cs => by
    simp [CForest.mapState, CForest.preorder, CTree.preorder_mapState f c,
      CForest.preorder_mapStateF f cs]
end

mutual
theorem CTree.mapState_mapState (f g : NodeState → NodeState) :
    ∀ t : CTree, CTree.mapState f (CTree.mapState g t) = CTree.mapState (fun s => f (g s)) t
  | .node s cs => by
    simp [CTree.mapState, CForest.mapState_mapStateF f g cs]
theorem CForest.mapState_mapStateF (f g : NodeState → NodeState) :
    ∀ cs : CForest, CForest.mapState f (CForest.mapState g cs) = CForest.mapState (fun s => f (g s)) cs
  | .nil => rfl
  | .cons c cs => by
    simp [CForest.mapState, CTree.mapState_mapState f g c, CForest.mapState_mapStateF f g cs]
end

mutual
theorem CTree.mapState_congr (f g : NodeState → NodeState) (h : ∀ s, f s = g s) :
    ∀ t : CTree, CTree.mapState f t = CTree.mapState g t
  | .node s cs => by
    simp [CTree.mapState, h s, CForest.mapState_congrF f g h cs]
theorem CForest.mapState_congrF (f g : NodeState → NodeState) (h : ∀ s, f s = g s) :
    ∀ cs : CForest, CForest.mapState f cs = CForest.mapState g cs
  | .nil => rfl
  | .cons c cs => by
    simp [CForest.mapState, CTree.mapState_congr f g h c, CForest.mapState_congrF f g h cs]
end

theorem CTree.length_preorder_mapState (f : NodeState → NodeState) (t : CTree) :
    (CTree.mapState f t).preorder.length = t.preorder.length := by
  rw [CTree.preorder_mapState]
  simp

theorem aspectTraceFrom_fst_ge :
    ∀ (as : List (NodeState → NodeState)) (i : Nat) (t : CTree) (e : Nat × NodeState),
      e ∈ aspectTraceFrom i as t → i ≤ e.1 := by
  intro as
  induction as with
  | nil => intro i t e h; simp [aspectTraceFrom] at h
  | cons a rest ih =>
    intro i t e h
    simp only [aspectTraceFrom, List.mem_append] at h
    rcases h with h | h
    · obtain ⟨s, _, rfl⟩ := List.mem_map.mp h
      exact Nat.le_refl i
    · exact Nat.le_of_succ_le (ih (i + 1) (CTree.mapState a t) e h)

theorem aspectTraceFrom_pairwise :
    ∀ (as : List (NodeState → NodeState)) (i : Nat) (t : CTree),
      List.Pairwise (fun e1 e2 => e1.1 ≤ e2.1) (aspectTraceFrom i as t) := by
  intro as
  induction as with
  | nil => intro i t; simp [aspectTraceFrom]
  | cons a rest ih =>
    intro i t
    simp only [aspectTraceFrom]
    rw [List.pairwise_append]
    refine ⟨?_, ih (i + 1) (CTree.mapState a t), ?_⟩
    · exact List.pairwise_map.mpr (List.pairwise_of_forall (fun _ _ => Nat.le_refl i))
    · intro e1 h1 e2 h2
      obtain ⟨s, _, rfl⟩ := List.mem_map.mp h1
      exact Nat.le_of_succ_le (aspectTraceFrom_fst_ge rest (i + 1) (CTree.mapState a t) e2 h2)

theorem aspectTraceFrom_eq :
    ∀ (as : List (NodeState → NodeState)) (j : Nat) (t : CTree),
      aspectTraceFrom j as t
        = (List.range as.length).flatMap
            (fun i => ((runAspects (as.take i) t).preorder).map (fun s => (j + i, s))) := by
  intro as
  induction as with
  | nil => intro j t; rfl
  | cons a rest ih =>
    intro j t
    have hfun : ∀ i : Nat,
        ((fun i => ((runAspects ((a :: rest).take i) t).preorder).map (fun s => (j + i, s)))
            ∘ Nat.succ) i
          = (fun i => ((runAspects (rest.take i) (CTree.mapState a t)).preorder).map
              (fun s => (j + 1 + i, s))) i := by
      intro i
      simp only [Function.comp_apply, Nat.succ_eq_add_one]
      have h1 : runAspects (List.take (i + 1) (a :: rest)) t
          = runAspects (List.take i rest) (CTree.mapState a t) := rfl
      have h2 : j + (i + 1) = j + 1 + i := by omega
      rw [h1, h2]
    calc aspectTraceFrom j (a :: rest) t
        = (t.preorder.map (fun s => (j, s)))
            ++ aspectTraceFrom (j + 1) rest (CTree.mapState a t) := by
          simp only [aspectTraceFrom]
      _ = (t.preorder.map (fun s => (j, s)))
            ++ (List.range rest.length).flatMap
                (fun i => ((runAspects (rest.take i) (CTree.mapState a t)).preorder).map
                  (fun s => (j + 1 + i, s))) := by rw [ih]
      _ = (List.range (a :: rest).length).flatMap
            (fun i => ((runAspects ((a :: rest).take i) t).preorder).map
              (fun s => (j + i, s))) := by
          rw [List.length_cons, List.range_succ_eq_map, List.flatMap_cons, List.flatMap_map]
          congr 1
          rw [List.flatMap_def, List.flatMap_def]
          congr 1
          exact List.map_congr_left (fun i _ => (hfun i).symm)

theorem hasRuleEntry_of_subtree (s : NodeState) (r : String)
    (h : hasSubtreeRuleEntry s r = true) : hasRuleEntry s r = true := by
  simp only [hasSubtreeRuleEntry, List.any_eq_true, Bool.and_eq_true] at h
  obtain ⟨e, he, h1, _⟩ := h
  simp only [hasRuleEntry, List.any_eq_true]
  exact ⟨e, he, h1⟩

theorem suppressedAt_isSome (r : String) :
    ∀ (p : List Nat) (t : CTree), (suppressedAt r p t).isSome = (CTree.getPath p t).isSome := by
  intro p
  induction p with
  | nil => intro t; cases t; rfl
  | cons i p' ih =>
    intro t
    cases t with
    | node s cs =>
      simp only [suppressedAt, CTree.getPath]
      cases h : CForest.get? cs i with
      | none => simp [h]
      | some c => simp [h, ih c]

theorem suppressedAt_subtree_root (r : String) (s : NodeState) (cs : CForest)
    (hs : hasSubtreeRuleEntry s r = true) :
    ∀ q : List Nat, (CTree.getPath q (CTree.node s cs)).isSome = true →
      suppressedAt r q (CTree.node s cs) = some true := by
  intro q
  cases q with
  | nil =>
    intro _
    simp [suppressedAt, hasRuleEntry_of_subtree s r hs]
  | cons i q' =>
    intro hvalid
    simp only [CTree.getPath] at hvalid
    simp only [suppressedAt]
    cases h : CForest.get? cs i with
    | none => rw [h] at hvalid; simp at hvalid
    | some c =>
      rw [h] at hvalid
      have hb : (suppressedAt r q' c).isSome = true := by
        rw [suppressedAt_isSome]; exact hvalid
      obtain ⟨b, hb2⟩ := Option.isSome_iff_exists.mp hb
      simp [hb2, hs]

theorem suppressedAt_subtree (r : String) :
    ∀ (p q : List Nat) (t : CTree) (s : NodeState) (cs : CForest),
      CTree.getPath p t = some (CTree.node s cs) →
      hasSubtreeRuleEntry s r = true →
      (CTree.getPath (p ++ q) t).isSome = true →
      suppressedAt r (p ++ q) t = some true := by
  intro p
  induction p with
  | nil =>
    intro q t s cs hget hs hvalid
    simp only [CTree.getPath] at hget
    obtain rfl := Option.some.inj hget
    exact suppressedAt_subtree_root r s cs hs q (by simpa using hvalid)
  | cons i p' ih =>
    intro q t s cs hget hs hvalid
    cases t with
    | node s0 cs0 =>
      simp only [CTree.getPath] at hget
      cases h : CForest.get? cs0 i with
      | none => rw [h] at hget; simp at hget
      | some c =>
        rw [h] at hget
        have hvalid2 : (CTree.getPath (p' ++ q) c).isSome = true := by
          simp only [List.cons_append, CTree.getPath, h] at hvalid
          exact hvalid
        have hrec := ih q c s cs hget hs hvalid2
        simp only [List.cons_append, suppressedAt, h, List.append_eq]
        rw [hrec]
        simp

theorem suppressedAt_origin (r : String) :
    ∀ (q : List Nat) (t : CTree), suppressedAt r q t = some true →
      ∃ q1 q2 s1 cs1, q1 ++ q2 = q ∧ CTree.getPath q1 t = some (CTree.node s1 cs1)
        ∧ hasRuleEntry s1 r = true := by
  intro q
  induction q with
  | nil =>
    intro t h
    cases t with
    | node s cs =>
      refine ⟨[], [], s, cs, rfl, rfl, ?_⟩
      simpa [suppressedAt] using h
  | cons i q' ih =>
    intro t h
    cases t with
    | node s cs =>
      simp only [suppressedAt] at h
      cases hg : CForest.get? cs i with
      | none => rw [hg] at h; simp at h
      | some c =>
        rw [hg] at h
        obtain ⟨b, hb, heq⟩ := Option.map_eq_some'.mp h
        cases hsub : hasSubtreeRuleEntry s r with
        | true => exact ⟨[], i :: q', s, cs, rfl, rfl, hasRuleEntry_of_subtree s r hsub⟩
        | false =>
          rw [hsub] at heq
          simp only [Bool.false_or] at heq
          subst heq
          obtain ⟨q1, q2, s1, cs1, happ, hpath, hrule⟩ := ih c hb
          refine ⟨i :: q1, q2, s1, cs1, ?_, ?_, hrule⟩
          · rw [List.cons_append, happ]
          · simp [CTree.getPath, hg, hpath]

mutual
theorem CTree.mapStateE_ok (f : NodeState → Except String NodeState)
    (hf : ∀ s, ∃ s2, f s = .ok s2) :
    ∀ t : CTree, ∃ t2, CTree.mapStateE f t = .ok t2
  | .node s cs => by
    obtain ⟨s2, hs2⟩ := hf s
    obtain ⟨cs2, hcs2⟩ := CForest.mapStateE_okF f hf cs
    exact ⟨.node s2 cs2, by simp [CTree.mapStateE, hs2, hcs2]⟩
theorem CForest.mapStateE_okF (f : NodeState → Except String NodeState)
    (hf : ∀ s, ∃ s2, f s = .ok s2) :
    ∀ cs : CForest, ∃ cs2, CForest.mapStateE f cs = .ok cs2
  | .nil => ⟨.nil, rfl⟩
  | .cons c cs => by
    obtain ⟨c2, hc2⟩ := CTree.mapStateE_ok f hf c
    obtain ⟨cs2, hcs2⟩ := CForest.mapStateE_okF f hf cs
    exact ⟨.cons c2 cs2, by simp [CForest.mapStateE, hc2, hcs2]⟩
end

mutual
theorem CTree.mapStateE_error_origin (f : NodeState → Except String NodeState) :
    ∀ t : CTree, ∀ e, CTree.mapStateE f t = .error e → ∃ s, f s = .error e
  | .node s cs => by
    intro e h
    simp only [CTree.mapStateE] at h
    cases hfs : f s with
    | error e2 =>
      rw [hfs] at h
      simp only [Except.error.injEq] at h
      subst h
      exact ⟨s, hfs⟩
    | ok s2 =>
      rw [hfs] at h
      cases hcs : CForest.mapStateE f cs with
      | error e2 =>
        rw [hcs] at h
        simp only [Except.error.injEq] at h
        exact h ▸ CForest.mapStateE_error_originF f cs e2 hcs
      | ok cs2 => rw [hcs] at h; simp at h
theorem CForest.mapStateE_error_originF (f : NodeState → Except String NodeState) :
    ∀ cs : CForest, ∀ e, CForest.mapStateE f cs = .error e → ∃ s, f s = .error e
  | .nil => by intro e h; simp [CForest.mapStateE] at h
  | .cons c cs => by
    intro e h
    simp only [CForest.mapStateE] at h
    cases hc : CTree.mapStateE f c with
    | error e2 =>
      rw [hc] at h
      simp only [Except.error.injEq] at h
      exact h ▸ CTree.mapStateE_error_origin f c e2 hc
    | ok c2 =>
      rw [hc] at h
      cases hcs : CForest.mapStateE f cs with
      | error e2 =>
        rw [hcs] at h
        simp only [Except.error.injEq] at h
        exact h ▸ CForest.mapStateE_error_originF f cs e2 hcs
      | ok cs2 => rw [hcs] at h; simp at h
end

theorem runAspectsE_ok :
    ∀ (as : List (NodeState → Except String NodeState)) (t : CTree),
      (∀ a ∈ as, ∀ s, ∃ s2, a s = .ok s2) → ∃ t2, runAspectsE as t = .ok t2 := by
  intro as
  induction as with
  | nil => intro t _; exact ⟨t, rfl⟩
  | cons a rest ih =>
    intro t hall
    obtain ⟨t2, ht2⟩ := CTree.mapStateE_ok a (hall a (List.mem_cons_self a rest)) t
    obtain ⟨t3, ht3⟩ := ih t2 (fun b hb => hall b (List.mem_cons_of_mem a hb))
    refine ⟨t3, ?_⟩
    simp only [runAspectsE]
    rw [ht2]
    exact ht3

theorem runAspectsE_error_origin :
    ∀ (as : List (NodeState → Except String NodeState)) (t : CTree) (e : String),
      runAspectsE as t = .error e → ∃ a ∈ as, ∃ s, a s = .error e := by
  intro as
  induction as with
  | nil => intro t e h; simp [runAspectsE] at h
  | cons a rest ih =>
    intro t e h
    simp only [runAspectsE] at h
    cases ha : CTree.mapStateE a t with
    | error e2 =>
      rw [ha] at h
      simp only [Except.error.injEq] at h
      obtain ⟨s, hs⟩ := CTree.mapStateE_error_origin a t e2 ha
      exact ⟨a, List.mem_cons_self a rest, s, h ▸ hs⟩
    | ok t2 =>
      rw [ha] at h
      obtain ⟨b, hb, s, hs⟩ := ih t2 e h
      exact ⟨b, List.mem_cons_of_mem a hb, s, hs⟩

/-- Claim C1: after the Tagging Aspect traversal completes, a node holds
every configured key iff it was taggable before the run, and every
untaggable node is unchanged by the aspect. -/
theorem tagging_covers_taggable (a : ApplyTags) (t : CTree) :
    (CTree.mapState (ApplyTags.visit a) t).preorder = t.preorder.map (ApplyTags.visit a)
    ∧ ∀ s ∈ t.preorder,
        ((∀ k ∈ a.tags.keys, tagPresent (a.visit s) k = true)
          ↔ TagManager.isTaggable s = true)
        ∧ (TagManager.isTaggable s = false → a.visit s = s) := by
  refine ⟨CTree.preorder_mapState _ t, ?_⟩
  intro s _
  refine ⟨?_, visit_not_taggable a s⟩
  constructor
  · intro hall
    by_contra hn
    have hfalse : TagManager.isTaggable s = false := by
      cases h : TagManager.isTaggable s
      · rfl
      · exact absurd h hn
    have hnone : s.tags = none := by
      cases h2 : s.tags
      · rfl
      · simp [TagManager.isTaggable, h2] at hfalse
    have hstage : "stage" ∈ a.tags.keys := by
      simp [Tags.keys, Tags.entries]
    have hs := hall "stage" hstage
    rw [visit_not_taggable a s hfalse] at hs
    simp [tagPresent, tagValue, hnone] at hs
  · intro htag k hk
    have hsome : s.tags.isSome = true := htag
    obtain ⟨m, hm⟩ := Option.isSome_iff_exists.mp hsome
    have hv := visit_tags a s m hm
    have hk2 : k ∈ a.tags.entries.map Prod.fst := hk
    obtain ⟨v, hvlast⟩ :=
      Option.isSome_iff_exists.mp (lastVal_isSome_of_mem k a.tags.entries hk2)
    simp [tagPresent, tagValue, hv, applyAll_apply, tagAfter, hvlast]

/-- Witness for claim C1 on the demo tree: the taggable child svc gets
the stage key, the untaggable root R is unchanged. -/
theorem tagging_covers_taggable_witness :
    tagPresent (ApplyTags.visit appAspect sSvc) "stage" = true
    ∧ ApplyTags.visit appAspect sRoot = sRoot :=
  ⟨((tagging_covers_taggable appAspect tDemo).2 sSvc
      (by show sSvc ∈ [sRoot, sSvc]; simp)).1.mpr rfl "stage"
      (by show "stage" ∈ ["stage", "project", "owner", "map-migrated"]; simp),
   ((tagging_covers_taggable appAspect tDemo).2 sRoot
      (by show sRoot ∈ [sRoot, sSvc]; simp)).2 rfl⟩

/-- Claim C2: aspects are applied in registration order; the visit
schedule is sorted by aspect index, and the block of aspect i is the
full pre-order traversal of the tree produced by the aspects registered
before i, so a later aspect never observes a node before an earlier
aspect has finished all nodes. -/
theorem aspects_run_in_registration_order (as : List (NodeState → NodeState)) (t : CTree) :
    List.Pairwise (fun e1 e2 => e1.1 ≤ e2.1) (aspectTrace as t)
    ∧ aspectTrace as t
        = (List.range as.length).flatMap
            (fun i => ((runAspects (as.take i) t).preorder).map (fun s => (i, s))) := by
  constructor
  · exact aspectTraceFrom_pairwise as 0 t
  · have h := aspectTraceFrom_eq as 0 t
    simpa using h

/-- Claim C3: running the same Tagging Aspect traversal twice over a
tree yields exactly the same tree of tag state as running it once. -/
theorem tagging_pass_idempotent (a : ApplyTags) (t : CTree) :
    CTree.mapState (ApplyTags.visit a) (CTree.mapState (ApplyTags.visit a) t)
      = CTree.mapState (ApplyTags.visit a) t := by
  rw [CTree.mapState_mapState]
  exact CTree.mapState_congr _ _ (visit_visit a) t

/-- Claim C4: when two Tagging Aspects both configure a key, after the
synthesis pass every taggable node holds the value of the
later-registered aspect for that key. -/
theorem overlapping_key_last_aspect_wins (a1 a2 : ApplyTags) (t : CTree) (k : String)
    (h1 : k ∈ a1.tags.keys) (h2 : k ∈ a2.tags.keys) :
    (runAspects [ApplyTags.visit a1, ApplyTags.visit a2] t).preorder
      = t.preorder.map (fun s => ApplyTags.visit a2 (ApplyTags.visit a1 s))
    ∧ ∀ s ∈ t.preorder, TagManager.isTaggable s = true →
        tagValue (ApplyTags.visit a2 (ApplyTags.visit a1 s)) k = a2.tags.valueFor k := by
  constructor
  · show (CTree.mapState (ApplyTags.visit a2) (CTree.mapState (ApplyTags.visit a1) t)).preorder = _
    rw [CTree.preorder_mapState, CTree.preorder_mapState, List.map_map]
    rfl
  · intro s _ htag
    have hsome : s.tags.isSome = true := htag
    obtain ⟨m, hm⟩ := Option.isSome_iff_exists.mp hsome
    have hv1 := visit_tags a1 s m hm
    have hv2 := visit_tags a2 (ApplyTags.visit a1 s) (applyAll a1.tags.entries m) hv1
    have hk2 : k ∈ a2.tags.entries.map Prod.fst := h2
    obtain ⟨v, hvlast⟩ :=
      Option.isSome_iff_exists.mp (lastVal_isSome_of_mem k a2.tags.entries hk2)
    simp [tagValue, hv2, applyAll_apply, tagAfter, hvlast, Tags.valueFor]

/-- Witness for claim C4: with the empty-project aspect registered first
and the app aspect second, the final stage value on svc is the value of
the second aspect. -/
theorem overlapping_key_last_aspect_wins_witness :
    tagValue (ApplyTags.visit appAspect (ApplyTags.visit { tags := tagsEmptyProject } sSvc))
        "stage"
      = appAspect.tags.valueFor "stage" :=
  (overlapping_key_last_aspect_wins { tags := tagsEmptyProject } appAspect tDemo "stage"
      (by show "stage" ∈ ["stage", "project", "owner", "map-migrated"]; simp)
      (by show "stage" ∈ ["stage", "project", "owner", "map-migrated"]; simp)).2
    sSvc (by show sSvc ∈ [sRoot, sSvc]; simp) rfl

/-- Claim C6: appending is the only ledger mutation, nothing is removed
or deduplicated, and appending the same entry twice leaves two copies in
append order. -/
theorem suppression_ledger_append_only (s : NodeState) (es : List SuppressionEntry)
    (e : SuppressionEntry) :
    (addSuppressions s es).suppressions = s.suppressions ++ es
    ∧ (addSuppressions s es).ident = s.ident
    ∧ (addSuppressions s es).tags = s.tags
    ∧ (addSuppressions (addSuppressions s [e]) [e]).suppressions
        = s.suppressions ++ [e, e] := by
  refine ⟨rfl, rfl, rfl, ?_⟩
  simp [addSuppressions]

/-- Claim C7: a visit failure during synthesis aborts it, the
originating error is surfaced to the caller, and no Artifact is
produced; when no visit can fail, an Artifact is produced. -/
theorem aspect_failure_aborts_synthesis (as : List (NodeState → Except String NodeState))
    (t : CTree) :
    (∀ e, runAspectsE as t = .error e →
      synthesize as t = .error e
      ∧ (∀ art, synthesize as t ≠ .ok art)
      ∧ ∃ a ∈ as, ∃ s, a s = .error e)
    ∧ ((∀ a ∈ as, ∀ s, ∃ s2, a s = .ok s2) → ∃ art, synthesize as t = .ok art) := by
  constructor
  · intro e he
    refine ⟨?_, ?_, runAspectsE_error_origin as t e he⟩
    · simp [synthesize, he]
    · intro art hart
      simp [synthesize, he] at hart
  · intro hall
    obtain ⟨t2, ht2⟩ := runAspectsE_ok as t hall
    exact ⟨{ content := t2 }, by simp [synthesize, ht2]⟩

/-- Witness for claim C7: a failing aspect aborts synthesis of the demo
tree with its error, and the empty aspect list synthesizes fine. -/
theorem aspect_failure_aborts_synthesis_witness :
    synthesize [failingAspect] tDemo = .error "boom"
    ∧ ∃ art, synthesize ([] : List (NodeState → Except String NodeState)) tDemo = .ok art :=
  ⟨((aspect_failure_aborts_synthesis [failingAspect] tDemo).1 "boom" rfl).1,
   (aspect_failure_aborts_synthesis [] tDemo).2 (by simp)⟩

/-- Claim C9: an ApplyTags visit changes nothing but tag state: the
identifier, ledger and taggability are kept, an untaggable node is
returned untouched, keys outside the configured mapping are untouched,
and the traversal keeps the identifier sequence of the tree. -/
theorem visit_frame_effect (a : ApplyTags) :
    (∀ s : NodeState,
      (a.visit s).ident = s.ident
      ∧ (a.visit s).suppressions = s.suppressions
      ∧ TagManager.isTaggable (a.visit s) = TagManager.isTaggable s
      ∧ (TagManager.isTaggable s = false → a.visit s = s)
      ∧ (∀ k, k ∉ a.tags.keys → tagValue (a.visit s) k = tagValue s k))
    ∧ ∀ t : CTree,
        (CTree.mapState (ApplyTags.visit a) t).preorder.map NodeState.ident
          = t.preorder.map NodeState.ident := by
  constructor
  · intro s
    refine ⟨visit_ident a s, visit_suppressions a s, visit_isTaggable a s,
      visit_not_taggable a s, ?_⟩
    intro k hk
    cases hm : s.tags with
    | none =>
      rw [visit_not_taggable a s (by simp [TagManager.isTaggable, hm])]
    | some m =>
      have hv := visit_tags a s m hm
      have hnone : lastVal a.tags.entries k = none := by
        apply lastVal_eq_none
        intro kv hkv heq
        exact hk (heq ▸ List.mem_map_of_mem Prod.fst hkv)
      simp [tagValue, hv, hm, applyAll_apply, tagAfter, hnone]
  · intro t
    rw [CTree.preorder_mapState, List.map_map]
    exact List.map_congr_left (fun s _ => visit_ident a s)

/-- Witness for claim C9: the visit keeps the svc identifier, returns
the untaggable root untouched and leaves an unconfigured key unset. -/
theorem visit_frame_effect_witness :
    (ApplyTags.visit appAspect sSvc).ident = sSvc.ident
    ∧ ApplyTags.visit appAspect sRoot = sRoot
    ∧ tagValue (ApplyTags.visit appAspect sSvc) "zzz" = tagValue sSvc "zzz" :=
  ⟨((visit_frame_effect appAspect).1 sSvc).1,
   ((visit_frame_effect appAspect).1 sRoot).2.2.2.1 rfl,
   ((visit_frame_effect appAspect).1 sSvc).2.2.2.2 "zzz" (by decide)⟩

/-- Claim C8: attach fails with DuplicateIdentifier when the child
identifier collides with an existing child of the parent, leaving the
store unchanged; otherwise the child is appended to the parent ordered
child list, the child parent reference is set, and no other node
changes. -/
theorem attach_duplicate_identifier (g : List GraphNode) (p c : Nat) (pn cn : GraphNode)
    (hp : g[p]? = some pn) (hc : g[c]? = some cn) (hpc : p ≠ c) :
    ((childIdents g pn).contains cn.ident = true →
      attach g p c = (g, some GraphError.duplicateIdentifier))
    ∧ ((childIdents g pn).contains cn.ident = false →
      (attach g p c).2 = none
      ∧ (attach g p c).1[p]? = some { pn with children := pn.children ++ [c] }
      ∧ (attach g p c).1[c]? = some { cn with parent := some p }
      ∧ ∀ j, j ≠ p → j ≠ c → (attach g p c).1[j]? = g[j]?) := by
  have hplen : p < g.length := (List.getElem?_eq_some_iff.mp hp).1
  have hclen : c < g.length := (List.getElem?_eq_some_iff.mp hc).1
  constructor
  · intro hdup
    simp only [attach, hp, hc]
    rw [hdup]
    rfl
  · intro hnodup
    have hatt : attach g p c
        = ((g.set p { pn with children := pn.children ++ [c] }).set c
            { cn with parent := some p }, none) := by
      simp only [attach, hp, hc]
      rw [hnodup]
      rfl
    refine ⟨by rw [hatt], ?_, ?_, ?_⟩
    · rw [hatt]
      show ((g.set p { pn with children := pn.children ++ [c] }).set c
          { cn with parent := some p })[p]?
        = some { pn with children := pn.children ++ [c] }
      rw [List.getElem?_set_ne (Ne.symm hpc), List.getElem?_set_self hplen]
    · rw [hatt]
      show ((g.set p { pn with children := pn.children ++ [c] }).set c
          { cn with parent := some p })[c]?
        = some { cn with parent := some p }
      rw [List.getElem?_set_self (by simpa using hclen)]
    · intro j hjp hjc
      rw [hatt]
      show ((g.set p { pn with children := pn.children ++ [c] }).set c
          { cn with parent := some p })[j]? = g[j]?
      rw [List.getElem?_set_ne (Ne.symm hjc), List.getElem?_set_ne (Ne.symm hjp)]

/-- Witness for claim C8: attaching the colliding svc node to R fails
with DuplicateIdentifier and leaves the demo store untouched; attaching
the fresh db node succeeds. -/
theorem attach_duplicate_identifier_witness :
    attach gDemo 0 2 = (gDemo, some GraphError.duplicateIdentifier)
    ∧ (attach gDemo 0 3).2 = none :=
  ⟨(attach_duplicate_identifier gDemo 0 2
      { ident := "R", parent := none, children := [1] }
      { ident := "svc", parent := none, children := [] }
      rfl rfl (by decide)).1 (by decide),
   ((attach_duplicate_identifier gDemo 0 3
      { ident := "R", parent := none, children := [1] }
      { ident := "db", parent := none, children := [] }
      rfl rfl (by decide)).2 (by decide)).1⟩

/-- Claim C5: a subtree-scoped ledger entry for rule r on the node at
path p makes the checker suppress r there and on every descendant; when
the only ledger entries for r sit at p, the checker reports r (does not
suppress) on every ancestor and every sibling of that node. -/
theorem subtree_suppression_scope (t : CTree) (p : List Nat) (r : String)
    (s : NodeState) (cs : CForest)
    (hget : CTree.getPath p t = some (CTree.node s cs))
    (hs : hasSubtreeRuleEntry s r = true) :
    (∀ q, (CTree.getPath (p ++ q) t).isSome = true →
      suppressedAt r (p ++ q) t = some true)
    ∧ ((∀ q1 s1 cs1, CTree.getPath q1 t = some (CTree.node s1 cs1) →
          hasRuleEntry s1 r = true → q1 = p) →
        ∀ q, (CTree.getPath q t).isSome = true →
          ((∃ q3, q3 ≠ [] ∧ q ++ q3 = p)
            ∨ (q ≠ p ∧ q.length = p.length ∧ q.dropLast = p.dropLast)) →
          suppressedAt r q t = some false) := by
  constructor
  · intro q hq
    exact suppressedAt_subtree r p q t s cs hget hs hq
  · intro honly q hq hqrel
    have hb : (suppressedAt r q t).isSome = true := by
      rw [suppressedAt_isSome]; exact hq
    obtain ⟨b, hbeq⟩ := Option.isSome_iff_exists.mp hb
    cases b with
    | false => exact hbeq
    | true =>
      exfalso
      obtain ⟨q1, q2, s1, cs1, happ, hpath, hrule⟩ := suppressedAt_origin r q t hbeq
      have hq1p : q1 = p := honly q1 s1 cs1 hpath hrule
      subst hq1p
      rcases hqrel with ⟨q3, hq3ne, hq3⟩ | ⟨hne, hlen, _⟩
      · have hcomb : (q1 ++ q2) ++ q3 = q1 := by rw [happ, hq3]
        have hlen2 := congrArg List.length hcomb
        simp only [List.length_append] at hlen2
        have hq3nil : q3 = [] := List.length_eq_zero.mp (by omega)
        exact hq3ne hq3nil
      · have hlen2 := congrArg List.length happ
        simp only [List.length_append] at hlen2
        have hq2nil : q2 = [] := List.length_eq_zero.mp (by omega)
        subst hq2nil
        rw [List.append_nil] at happ
        exact hne happ.symm

/-- Witness for claim C5 on the demo suppression tree: RULE-1 is
suppressed on descendant D of entry holder C, reported on sibling S and
on ancestor R. -/
theorem subtree_suppression_scope_witness :
    suppressedAt "RULE-1" [0, 0] tSupp = some true
    ∧ suppressedAt "RULE-1" [1] tSupp = some false
    ∧ suppressedAt "RULE-1" [] tSupp = some false := by
  have h := subtree_suppression_scope tSupp [0] "RULE-1" sC
      (CForest.cons (CTree.node sD CForest.nil) CForest.nil) rfl (by decide)
  have honly : ∀ q1 s1 cs1, CTree.getPath q1 tSupp = some (CTree.node s1 cs1) →
      hasRuleEntry s1 "RULE-1" = true → q1 = [0] := by
    intro q1 s1 cs1 hpath hrule
    match q1, hpath with
    | [], hpath =>
      have h3 : sRoot = s1 := congrArg CTree.state (Option.some.inj hpath)
      rw [← h3] at hrule
      exact Bool.noConfusion hrule
    | 0 :: [], _ => rfl
    | 0 :: 0 :: [], hpath =>
      have h3 : sD = s1 := congrArg CTree.state (Option.some.inj hpath)
      rw [← h3] at hrule
      exact Bool.noConfusion hrule
    | 0 :: 0 :: j :: rest, hpath => exact Option.noConfusion hpath
    | 0 :: (j + 1) :: rest, hpath => exact Option.noConfusion hpath
    | 1 :: [], hpath =>
      have h3 : sSib = s1 := congrArg CTree.state (Option.some.inj hpath)
      rw [← h3] at hrule
      exact Bool.noConfusion hrule
    | 1 :: j :: rest, hpath => exact Option.noConfusion hpath
    | (j + 2) :: rest, hpath => exact Option.noConfusion hpath
  exact ⟨h.1 [0] rfl, h.2 honly [1] rfl (Or.inr ⟨by decide, rfl, rfl⟩),
    h.2 honly [] rfl (Or.inl ⟨[0], by decide, rfl⟩)⟩

/-- Counterexample to claim C10 as stated: the Tags type does not force
the project value (nor owner, map-migrated) to be non-empty; an
ApplyTags aspect built over a Tags value with an empty project string is
admitted by the type. -/
theorem tags_values_nonempty_refuted :
    ¬ ∀ a : ApplyTags, ∀ v, a.tags.valueFor "project" = some v → v ≠ "" :=
  fun h => h { tags := tagsEmptyProject } "" (by decide) rfl

/-- Claim C10 amended: every ApplyTags mapping necessarily contains the
four mandatory keys; the stage value is forced to one of dev, staging,
prod (hence non-empty) and every taggable node ends up with exactly that
stage value after a visit; the other three values are arbitrary strings
not forced non-empty, though the single aspect constructed in this app
does supply non-empty values. -/
theorem tags_mandatory_keys_stage_range :
    (∀ a : ApplyTags,
      ("stage" ∈ a.tags.keys ∧ "project" ∈ a.tags.keys ∧ "owner" ∈ a.tags.keys
        ∧ "map-migrated" ∈ a.tags.keys)
      ∧ a.tags.valueFor "stage" = some a.tags.stage.render
      ∧ (a.tags.stage.render = "dev" ∨ a.tags.stage.render = "staging"
          ∨ a.tags.stage.render = "prod")
      ∧ ∀ s : NodeState, TagManager.isTaggable s = true →
          tagValue (a.visit s) "stage" = some a.tags.stage.render)
    ∧ (appTags.project ≠ "" ∧ appTags.owner ≠ "" ∧ appTags.mapMigrated ≠ ""
        ∧ appTags.stage = Stage.dev) := by
  constructor
  · intro a
    have hstage_last : lastVal a.tags.entries "stage" = some a.tags.stage.render := by
      have hrest : lastVal (("project", a.tags.project) :: ("owner", a.tags.owner)
          :: ("map-migrated", a.tags.mapMigrated) :: a.tags.extra) "stage" = none := by
        apply lastVal_eq_none
        intro kv hkv
        simp only [List.mem_cons] at hkv
        rcases hkv with rfl | rfl | rfl | hkv
        · exact (by decide : ("project" : String) ≠ "stage")
        · exact (by decide : ("owner" : String) ≠ "stage")
        · exact (by decide : ("map-migrated" : String) ≠ "stage")
        · intro heq
          exact a.tags.extra_ok kv hkv (by simp [heq])
      have hstep : lastVal a.tags.entries "stage"
          = match lastVal (("project", a.tags.project) :: ("owner", a.tags.owner)
              :: ("map-migrated", a.tags.mapMigrated) :: a.tags.extra) "stage" with
            | some v => some v
            | none => some a.tags.stage.render := rfl
      rw [hstep, hrest]
    refine ⟨⟨?_, ?_, ?_, ?_⟩, hstage_last, ?_, ?_⟩
    · simp [Tags.keys, Tags.entries]
    · simp [Tags.keys, Tags.entries]
    · simp [Tags.keys, Tags.entries]
    · simp [Tags.keys, Tags.entries]
    · cases hst : a.tags.stage <;> simp [Stage.render]
    · intro s htag
      have hsome : s.tags.isSome = true := htag
      obtain ⟨m, hm⟩ := Option.isSome_iff_exists.mp hsome
      have hv := visit_tags a s m hm
      simp [tagValue, hv, applyAll_apply, tagAfter, hstage_last]
  · exact ⟨by decide, by decide, by decide, rfl⟩

/-- Witness for the amended claim C10: the taggable svc node ends up
with stage dev under the app aspect. -/
theorem tags_mandatory_keys_stage_range_witness :
    tagValue (ApplyTags.visit appAspect sSvc) "stage" = some "dev" :=
  (tags_mandatory_keys_stage_range.1 appAspect).2.2.2 sSvc rfl
